import Mathlib

/-!
Verification of the sparsity-pattern core of nalgebra-sparse
(`src/nalgebra-sparse/src/pattern.rs`).

The Rust code is shallowly embedded: `Vec<usize>` becomes `List Nat`,
fallible operations return explicit result types, and a Rust panic
(out-of-bounds slice or index, `unwrap` on `None`, assertion failure)
is modelled as an explicit `panicked` / `none` outcome.
-/

set_option maxHeartbeats 1000000

/-- Error kinds of `SparseFormatError` relevant to `SparsityPattern`
(the message strings of the source are dropped; only the kind matters):
`InvalidStructure`, `IndexOutOfBounds`, `DuplicateEntry`. -/
inductive SparseFormatError where
  | InvalidStructure
  | IndexOutOfBounds
  | DuplicateEntry
deriving DecidableEq, Repr

/-- The Rust slice expression `xs[a..b]`: defined when `a ≤ b ≤ xs.len()`,
otherwise the program panics (modelled as `none`). -/
def rustSlice (xs : List Nat) (a b : Nat) : Option (List Nat) :=
  if a ≤ b ∧ b ≤ xs.length then some ((xs.drop a).take (b - a)) else none

/-- The struct `SparsityPattern` from pattern.rs. -/
structure SparsityPattern where
  major_offsets : List Nat
  minor_indices : List Nat
  minor_dim : Nat
deriving DecidableEq, Repr

/-- The constructor `SparsityPattern::new` (the spec calls it `create`):
`major_offsets = vec![0; major_dim + 1]`, `minor_indices = vec![]`. -/
def SparsityPattern.new (major_dim minor_dim : Nat) : SparsityPattern :=
  { major_offsets := List.replicate (major_dim + 1) 0
    minor_indices := []
    minor_dim := minor_dim }

/-- The accessor `SparsityPattern::major_dim`: `assert!(major_offsets.len() > 0)` then
`major_offsets.len() - 1`. A failing assertion is modelled as `none`. -/
def SparsityPattern.major_dim (p : SparsityPattern) : Option Nat :=
  if 0 < p.major_offsets.length then some (p.major_offsets.length - 1) else none

/-- The accessor `SparsityPattern::nnz`. -/
def SparsityPattern.nnz (p : SparsityPattern) : Nat := p.minor_indices.length

/-- Outcome of `SparsityPattern::lane`: the source returns `Option<&[usize]>`
(`absent` / `view`), but the internal slice `minor_indices[begin..end]` can
also panic on an invalid instance. -/
inductive LaneResult where
  | panicked
  | absent
  | view (v : List Nat)
deriving DecidableEq, Repr

/-- The accessor `SparsityPattern::lane`: `major_offsets.get(major_index)?`,
`major_offsets.get(major_index + 1)?`, then
`&minor_indices[offset_begin..offset_end]`. -/
def SparsityPattern.lane (p : SparsityPattern) (major_index : Nat) : LaneResult :=
  match p.major_offsets[major_index]?, p.major_offsets[major_index + 1]? with
  | some offset_begin, some offset_end =>
    match rustSlice p.minor_indices offset_begin offset_end with
    | some v => .view v
    | none => .panicked
  | _, _ => .absent

/-- The `while let Some(next) = iter.next()` loop of
`try_from_offsets_and_indices`, walking one lane's minor indices with the
previous value seen; `none` means the walk found no defect. -/
def validateLane (minor_dim : Nat) : Option Nat → List Nat → Option SparseFormatError
  | _, [] => none
  | prev, next :: rest =>
    if next > minor_dim then
      some .IndexOutOfBounds
    else
      match prev with
      | some prevVal =>
        if prevVal > next then
          some .InvalidStructure
        else if prevVal = next then
          some .DuplicateEntry
        else validateLane minor_dim (some next) rest
      | none => validateLane minor_dim (some next) rest

/-- Outcome of the `for lane_idx in 0..major_dim` validation loop. -/
inductive LanesOutcome where
  | panicked
  | error (e : SparseFormatError)
  | ok
deriving DecidableEq, Repr

/-- The `for lane_idx in 0..major_dim` loop of `try_from_offsets_and_indices`:
reads `major_offsets[lane_idx]` and `major_offsets[lane_idx + 1]`, rejects
`range_start > range_end`, slices `minor_indices[range_start..range_end]`
(which can panic) and walks the slice with `validateLane`.
Arguments: current lane index, number of lanes still to check. -/
def checkLanesFrom (major_offsets minor_indices : List Nat) (minor_dim : Nat) :
    Nat → Nat → LanesOutcome
  | _, 0 => .ok
  | lane_idx, remaining + 1 =>
    match major_offsets[lane_idx]?, major_offsets[lane_idx + 1]? with
    | some range_start, some range_end =>
      if range_start > range_end then
        .error .InvalidStructure
      else
        match rustSlice minor_indices range_start range_end with
        | none => .panicked
        | some laneIndices =>
          match validateLane minor_dim none laneIndices with
          | some e => .error e
          | none => checkLanesFrom major_offsets minor_indices minor_dim (lane_idx + 1) remaining
    | _, _ => .panicked

/-- Result of `SparsityPattern::try_from_offsets_and_indices`:
`Ok`, a typed `SparseFormatError`, or a panic. -/
inductive TryResult where
  | panicked
  | error (e : SparseFormatError)
  | ok (p : SparsityPattern)
deriving DecidableEq, Repr

/-- The validating constructor `SparsityPattern::try_from_offsets_and_indices`
(the spec's `try_create`):
length check, first/last offset checks (via `first().unwrap()` and
`last().unwrap()`), then the per-lane validation loop; on success the input
arrays are stored unchanged. -/
def SparsityPattern.try_from_offsets_and_indices
    (major_dim minor_dim : Nat) (major_offsets minor_indices : List Nat) : TryResult :=
  if major_offsets.length ≠ major_dim + 1 then
    .error .InvalidStructure
  else
    match major_offsets.head?, major_offsets.getLast? with
    | some firstOffset, some lastOffset =>
      if firstOffset ≠ 0 then
        .error .InvalidStructure
      else if lastOffset ≠ minor_indices.length then
        .error .InvalidStructure
      else
        match checkLanesFrom major_offsets minor_indices minor_dim 0 major_dim with
        | .panicked => .panicked
        | .error e => .error e
        | .ok =>
          .ok { major_offsets := major_offsets
                minor_indices := minor_indices
                minor_dim := minor_dim }
    | _, _ => .panicked

/-- The struct `SparsityPatternIter` from pattern.rs. -/
structure SparsityPatternIter where
  major_offsets : List Nat
  minor_indices : List Nat
  current_lane_idx : Nat
  remaining_minors_in_lane : List Nat
deriving DecidableEq, Repr

/-- The constructor `SparsityPatternIter::from_pattern`:
`first_lane_end = major_offsets.get(1).unwrap_or(&0)`, then the slice
`minor_indices[0..first_lane_end]` (panic modelled as `none`). -/
def SparsityPatternIter.from_pattern (p : SparsityPattern) : Option SparsityPatternIter :=
  let first_lane_end := (p.major_offsets[1]?).getD 0
  match rustSlice p.minor_indices 0 first_lane_end with
  | some minors_in_first_lane =>
    some { major_offsets := p.major_offsets
           minor_indices := p.minor_indices
           current_lane_idx := 0
           remaining_minors_in_lane := minors_in_first_lane }
  | none => none

/-- Outcome of the lane-skipping `loop` inside `Iterator::next`. -/
inductive SeekOut where
  | panicked
  | done (final_idx : Nat)
  | yield (pair : Nat × Nat) (new_idx : Nat) (rem : List Nat)
deriving DecidableEq, Repr

/-- The `loop` inside `Iterator::next`, entered with an empty
`remaining_minors_in_lane`: while `current_lane_idx + 2 < major_offsets.len()`,
bump the lane index, read `lower`/`upper` from `major_offsets`, and on a
non-empty lane yield its first entry and slice off the rest.
The fuel argument is a recursion bound only; `next` passes
`major_offsets.length + 1`, which always exceeds the number of iterations,
so the fuel-exhaustion branch is unreachable. -/
def seekFrom (major_offsets minor_indices : List Nat) : Nat → Nat → SeekOut
  | 0, _ => .panicked
  | fuel + 1, idx =>
    if idx + 2 ≥ major_offsets.length then .done idx
    else
      match major_offsets[idx + 1]?, major_offsets[idx + 2]? with
      | some lower, some upper =>
        if upper > lower then
          match rustSlice minor_indices (lower + 1) upper, minor_indices[lower]? with
          | some rem, some firstMinor => .yield (idx + 1, firstMinor) (idx + 1) rem
          | _, _ => .panicked
        else seekFrom major_offsets minor_indices fuel (idx + 1)
      | _, _ => .panicked

/-- One step of the iterator: `None` (exhaustion) is `done`, carrying the
post-call state, since `next(&mut self)` can mutate `self` before returning. -/
inductive StepResult where
  | panicked
  | done (state : SparsityPatternIter)
  | yield (pair : Nat × Nat) (state : SparsityPatternIter)
deriving DecidableEq, Repr

/-- The `Iterator::next` implementation for `SparsityPatternIter`: drain the current lane's
remaining minor indices; when empty, run the lane-skipping loop. -/
def SparsityPatternIter.next (it : SparsityPatternIter) : StepResult :=
  match it.remaining_minors_in_lane with
  | minor_idx :: rest =>
    .yield (it.current_lane_idx, minor_idx) { it with remaining_minors_in_lane := rest }
  | [] =>
    match seekFrom it.major_offsets it.minor_indices (it.major_offsets.length + 1)
        it.current_lane_idx with
    | .panicked => .panicked
    | .done fi => .done { it with current_lane_idx := fi }
    | .yield pair ni rem =>
      .yield pair { it with current_lane_idx := ni, remaining_minors_in_lane := rem }

/-- Run the iterator to a list of emitted pairs; `none` on panic or if the
fuel (an upper bound on the number of `next` calls) runs out. -/
def runIter : Nat → SparsityPatternIter → Option (List (Nat × Nat))
  | 0, _ => none
  | fuel + 1, it =>
    match it.next with
    | .panicked => none
    | .done _ => some []
    | .yield pair it2 => (runIter fuel it2).map (fun l => pair :: l)

/-- The full sequence produced by `SparsityPattern::entries()`: build the
iterator with `from_pattern` and drain it. The fuel `nnz + 1` is exact for a
valid pattern: `nnz` yields plus one exhaustion step. -/
def SparsityPattern.entriesList (p : SparsityPattern) : Option (List (Nat × Nat)) :=
  match SparsityPatternIter.from_pattern p with
  | none => none
  | some it => runIter (p.nnz + 1) it

/-- Specification-side description of the entries emitted from lane `lane`
onwards, the current lane read from position `t`:
`minor_indices[t .. major_offsets[lane+1]]` paired with `lane`, then the
remaining `cnt - 1` whole lanes. -/
def tailEntries (major_offsets minor_indices : List Nat) : Nat → Nat → Nat → List (Nat × Nat)
  | _, _, 0 => []
  | lane, t, cnt + 1 =>
    ((minor_indices.drop t).take (major_offsets.getD (lane + 1) 0 - t)).map (fun j => (lane, j))
      ++ tailEntries major_offsets minor_indices (lane + 1)
          (major_offsets.getD (lane + 1) 0) cnt

/-- The structural invariants of a validated `SparsityPattern` (stated with
`getD` and bounded quantifiers so that they are decidable on a concrete
instance): non-empty offsets, first offset `0`, last offset `= nnz`,
adjacent offsets non-decreasing, and minor indices strictly increasing at
adjacent positions inside each lane. -/
def SparsityPattern.wf (p : SparsityPattern) : Prop :=
  0 < p.major_offsets.length ∧
  p.major_offsets.getD 0 0 = 0 ∧
  p.major_offsets.getD (p.major_offsets.length - 1) 0 = p.minor_indices.length ∧
  (∀ i, i < p.major_offsets.length - 1 →
    p.major_offsets.getD i 0 ≤ p.major_offsets.getD (i + 1) 0) ∧
  (∀ i, i < p.major_offsets.length - 1 →
    ∀ k, k < p.major_offsets.getD (i + 1) 0 →
      p.major_offsets.getD i 0 ≤ k → k + 1 < p.major_offsets.getD (i + 1) 0 →
        p.minor_indices.getD k 0 < p.minor_indices.getD (k + 1) 0)

instance (p : SparsityPattern) : Decidable p.wf := by
  unfold SparsityPattern.wf
  infer_instance

/-- The sub-range of `minor_indices` belonging to lane `i`. -/
def laneSliceOf (p : SparsityPattern) (i : Nat) : List Nat :=
  (p.minor_indices.drop (p.major_offsets.getD i 0)).take
    (p.major_offsets.getD (i + 1) 0 - p.major_offsets.getD i 0)

/-- Claim C2's property of a successfully constructed pattern. -/
def validPatternSpec (major_dim minor_dim : Nat) (p : SparsityPattern) : Prop :=
  p.major_offsets.length = major_dim + 1 ∧
  p.major_offsets.getD 0 0 = 0 ∧
  (∀ i, i < major_dim → p.major_offsets.getD i 0 ≤ p.major_offsets.getD (i + 1) 0) ∧
  p.major_offsets.getD major_dim 0 = p.minor_indices.length ∧
  ∀ i, i < major_dim →
    (laneSliceOf p i).Pairwise (· < ·) ∧ ∀ j ∈ laneSliceOf p i, j ≤ minor_dim

/-- Claim C3's property of the entry sequence of a pattern: it is `some l`
with `l.length = nnz`, the `k`-th pair is `(i, minor_indices[k])` for the
unique lane `i` whose offset range contains `k`, lane indices are
non-decreasing between consecutive pairs, and minor indices strictly
increase between consecutive pairs of the same lane. -/
def entriesSpec (p : SparsityPattern) : Prop :=
  ∃ l, p.entriesList = some l ∧ l.length = p.nnz ∧
    (∀ k, k < p.nnz → ∃ i,
      i + 1 < p.major_offsets.length ∧
      p.major_offsets.getD i 0 ≤ k ∧ k < p.major_offsets.getD (i + 1) 0 ∧
      l[k]? = some (i, p.minor_indices.getD k 0) ∧
      ∀ i', i' + 1 < p.major_offsets.length →
        p.major_offsets.getD i' 0 ≤ k → k < p.major_offsets.getD (i' + 1) 0 → i' = i) ∧
    (∀ k a b, l[k]? = some a → l[k + 1]? = some b →
      a.1 ≤ b.1 ∧ (a.1 = b.1 → a.2 < b.2))

/-- The concrete Scenario A of the spec: offsets `[0,2,3,4]`,
indices `[0,2,1,0]`, dimensions `3 × 4`. -/
def scenarioASpec : Prop :=
  SparsityPattern.try_from_offsets_and_indices 3 4 [0, 2, 3, 4] [0, 2, 1, 0] =
    .ok ⟨[0, 2, 3, 4], [0, 2, 1, 0], 4⟩ ∧
  SparsityPattern.entriesList ⟨[0, 2, 3, 4], [0, 2, 1, 0], 4⟩ =
    some [(0, 0), (0, 2), (1, 1), (2, 0)]

/-! ### Basic facts about `rustSlice` and list slices -/

theorem rustSlice_eq_some {xs : List Nat} {a b : Nat} (h1 : a ≤ b) (h2 : b ≤ xs.length) :
    rustSlice xs a b = some ((xs.drop a).take (b - a)) := by
  simp [rustSlice, h1, h2]

theorem rustSlice_some_inv {xs : List Nat} {a b : Nat} {l : List Nat}
    (h : rustSlice xs a b = some l) :
    a ≤ b ∧ b ≤ xs.length ∧ l = (xs.drop a).take (b - a) := by
  by_cases hc : a ≤ b ∧ b ≤ xs.length
  · rw [rustSlice, if_pos hc] at h
    exact ⟨hc.1, hc.2, (Option.some.inj h).symm⟩
  · rw [rustSlice, if_neg hc] at h
    exact absurd h (by simp)

theorem slice_length {xs : List Nat} {a b : Nat} (h2 : b ≤ xs.length) :
    ((xs.drop a).take (b - a)).length = b - a := by
  simp [List.length_take, List.length_drop]
  omega

theorem getElem?_eq_some_getD {xs : List Nat} {k : Nat} (h : k < xs.length) :
    xs[k]? = some (xs.getD k 0) := by
  simp [List.getD_eq_getElem?_getD, List.getElem?_eq_getElem h]

theorem slice_cons {xs : List Nat} {a b : Nat} (h1 : a < b) (h2 : b ≤ xs.length) :
    (xs.drop a).take (b - a) = xs.getD a 0 :: (xs.drop (a + 1)).take (b - (a + 1)) := by
  have ha : a < xs.length := lt_of_lt_of_le h1 h2
  have hba : b - a = (b - (a + 1)) + 1 := by omega
  rw [hba, List.drop_eq_getElem_cons ha, List.take_succ_cons,
    List.getD_eq_getElem?_getD, List.getElem?_eq_getElem ha]
  rfl

theorem slice_getElem? {xs : List Nat} {a b k : Nat} (h2 : b ≤ xs.length) (hk : k < b - a) :
    ((xs.drop a).take (b - a))[k]? = some (xs.getD (a + k) 0) := by
  rw [List.getElem?_take_of_lt hk, List.getElem?_drop]
  exact getElem?_eq_some_getD (by omega)

theorem oget_mono {o : List Nat}
    (h : ∀ i, i < o.length - 1 → o.getD i 0 ≤ o.getD (i + 1) 0)
    {i j : Nat} (hij : i ≤ j) (hj : j < o.length) : o.getD i 0 ≤ o.getD j 0 := by
  induction j with
  | zero =>
    have : i = 0 := Nat.le_zero.mp hij
    simp [this]
  | succ n ih =>
    rcases Nat.lt_or_ge i (n + 1) with hlt | hge
    · have hi1 : o.getD i 0 ≤ o.getD n 0 := ih (by omega) (by omega)
      have hi2 : o.getD n 0 ≤ o.getD (n + 1) 0 := h n (by omega)
      omega
    · have : i = n + 1 := by omega
      simp [this]

/-! ### Facts about the validation loop -/

theorem validateLane_none_mem {md : Nat} :
    ∀ (l : List Nat) (prev : Option Nat), validateLane md prev l = none → ∀ j ∈ l, j ≤ md := by
  intro l
  induction l with
  | nil => simp
  | cons a rest ih =>
    intro prev h j hj
    by_cases hb : a > md
    · cases prev <;> simp [validateLane, hb] at h
    · have hrec : validateLane md (some a) rest = none := by
        cases prev with
        | none => simpa [validateLane, hb] using h
        | some pv =>
          by_cases h1 : pv > a
          · simp [validateLane, hb, h1] at h
          · by_cases hq : pv = a
            · simp [validateLane, hb, h1, hq] at h
            · simpa [validateLane, hb, h1, hq] using h
      rcases List.mem_cons.mp hj with rfl | hj
      · omega
      · exact ih (some a) hrec j hj

theorem validateLane_none_chain {md : Nat} :
    ∀ (l : List Nat) (prev : Option Nat), validateLane md prev l = none →
      l.Chain' (· < ·) ∧ (∀ pv hd, prev = some pv → l.head? = some hd → pv < hd) := by
  intro l
  induction l with
  | nil =>
    intro prev _
    exact ⟨List.chain'_nil, by simp⟩
  | cons a rest ih =>
    intro prev h
    by_cases hb : a > md
    · cases prev <;> simp [validateLane, hb] at h
    · have hprev : ∀ pv, prev = some pv → pv < a := by
        intro pv hpv
        subst hpv
        by_cases h1 : pv > a
        · simp [validateLane, hb, h1] at h
        · by_cases hq : pv = a
          · simp [validateLane, hb, h1, hq] at h
          · omega
      have hrec : validateLane md (some a) rest = none := by
        cases prev with
        | none => simpa [validateLane, hb] using h
        | some pv =>
          have h1 : ¬ pv > a := fun hgt => by simp [validateLane, hb, hgt] at h
          have hq : ¬ pv = a := fun heq => by simp [validateLane, hb, h1, heq] at h
          simpa [validateLane, hb, h1, hq] using h
      obtain ⟨hchain, hhd⟩ := ih (some a) hrec
      refine ⟨List.chain'_cons'.mpr ⟨?_, hchain⟩, ?_⟩
      · intro y hy
        exact hhd a y rfl hy
      · intro pv hd hpv hhd'
        have : hd = a := by simpa using hhd'.symm
        subst this
        exact hprev pv hpv

/-! ### Facts about the per-lane loop and the constructor -/

theorem checkLanesFrom_ok {o x : List Nat} {md : Nat} :
    ∀ (r L : Nat), checkLanesFrom o x md L r = .ok →
      ∀ i, L ≤ i → i < L + r →
        ∃ s e, o[i]? = some s ∧ o[i + 1]? = some e ∧ s ≤ e ∧ e ≤ x.length ∧
          validateLane md none ((x.drop s).take (e - s)) = none := by
  intro r
  induction r with
  | zero =>
    intro L _ i h1 h2
    omega
  | succ r ih =>
    intro L h i h1 h2
    rw [checkLanesFrom] at h
    cases hs : o[L]? with
    | none => rw [hs] at h; simp at h
    | some s =>
      cases he : o[L + 1]? with
      | none => rw [hs, he] at h; simp at h
      | some e =>
        rw [hs, he] at h
        dsimp only at h
        by_cases hgt : s > e
        · simp [hgt] at h
        · rw [if_neg hgt] at h
          cases hsl : rustSlice x s e with
          | none => rw [hsl] at h; simp at h
          | some laneIndices =>
            rw [hsl] at h
            dsimp only at h
            cases hv : validateLane md none laneIndices with
            | some err => rw [hv] at h; simp at h
            | none =>
              rw [hv] at h
              dsimp only at h
              obtain ⟨hse, hex, hlane⟩ := rustSlice_some_inv hsl
              rcases Nat.eq_or_lt_of_le h1 with rfl | hlt
              · refine ⟨s, e, hs, he, hse, hex, ?_⟩
                rw [← hlane]
                exact hv
              · exact ih (L + 1) h i hlt (by omega)

theorem try_from_ok_inv {a b : Nat} {o x : List Nat} {p : SparsityPattern}
    (h : SparsityPattern.try_from_offsets_and_indices a b o x = .ok p) :
    p = ⟨o, x, b⟩ ∧ o.length = a + 1 ∧ o.getD 0 0 = 0 ∧
      o.getD a 0 = x.length ∧ checkLanesFrom o x b 0 a = .ok := by
  rw [SparsityPattern.try_from_offsets_and_indices] at h
  by_cases hlen : o.length ≠ a + 1
  · simp [hlen] at h
  · rw [if_neg hlen] at h
    push_neg at hlen
    cases hh : o.head? with
    | none => rw [hh] at h; simp at h
    | some f =>
      cases hl : o.getLast? with
      | none => rw [hh, hl] at h; simp at h
      | some lst =>
        rw [hh, hl] at h
        dsimp only at h
        by_cases hf : f ≠ 0
        · simp [hf] at h
        · rw [if_neg hf] at h
          push_neg at hf
          by_cases hlst : lst ≠ x.length
          · simp [hlst] at h
          · rw [if_neg hlst] at h
            push_neg at hlst
            cases hc : checkLanesFrom o x b 0 a with
            | panicked => rw [hc] at h; simp at h
            | error e => rw [hc] at h; simp at h
            | ok =>
              rw [hc] at h
              dsimp only at h
              simp only [TryResult.ok.injEq] at h
              have h0 : o.getD 0 0 = 0 := by
                rw [List.getD_eq_getElem?_getD, ← List.head?_eq_getElem?, hh]
                simpa using hf
              have hla : o.getD a 0 = x.length := by
                have := List.getLast?_eq_getElem? o
                rw [hl, hlen] at this
                rw [List.getD_eq_getElem?_getD]
                simp only [Nat.add_sub_cancel] at this
                rw [← this]
                simpa using hlst
              exact ⟨h.symm, hlen, h0, hla, rfl⟩

theorem getD_replicate_zero {n i : Nat} : (List.replicate n 0).getD i 0 = 0 := by
  rw [List.getD_eq_getElem?_getD, List.getElem?_replicate]
  split <;> rfl

theorem new_wf (a b : Nat) : (SparsityPattern.new a b).wf := by
  refine ⟨?_, ?_, ?_, ?_, ?_⟩
  · simp [SparsityPattern.new]
  · simp [SparsityPattern.new, getD_replicate_zero]
  · simp [SparsityPattern.new, getD_replicate_zero]
  · intro i _
    simp [SparsityPattern.new, getD_replicate_zero]
  · intro i _ k hk _ _
    rw [SparsityPattern.new] at hk
    simp only [getD_replicate_zero] at hk
    omega

theorem chain_slice_adjacent {x : List Nat} {s e : Nat}
    (hchain : ((x.drop s).take (e - s)).Chain' (· < ·)) (hex : e ≤ x.length) :
    ∀ k, s ≤ k → k + 1 < e → x.getD k 0 < x.getD (k + 1) 0 := by
  intro k hk1 hk2
  have hlen : ((x.drop s).take (e - s)).length = e - s := slice_length hex
  have hg := List.chain'_iff_get.mp hchain (k - s) (by omega)
  have g1 : ((x.drop s).take (e - s)).get ⟨k - s, by omega⟩ = x.getD k 0 := by
    have h1 : k - s < e - s := by omega
    have hsome := slice_getElem? (a := s) hex h1
    rw [List.getElem?_eq_getElem (by omega)] at hsome
    rw [List.get_eq_getElem, Option.some.inj hsome]
    congr 1
    omega
  have g2 : ((x.drop s).take (e - s)).get ⟨k - s + 1, by omega⟩ = x.getD (k + 1) 0 := by
    have h1 : k - s + 1 < e - s := by omega
    have hsome := slice_getElem? (a := s) hex h1
    rw [List.getElem?_eq_getElem (by omega)] at hsome
    rw [List.get_eq_getElem, Option.some.inj hsome]
    congr 1
    omega
  rw [g1, g2] at hg
  exact hg

theorem slice_mem_getD {x : List Nat} {s e k : Nat} (hex : e ≤ x.length)
    (hk1 : s ≤ k) (hk2 : k < e) :
    x.getD k 0 ∈ (x.drop s).take (e - s) := by
  have h1 : k - s < e - s := by omega
  have hsome := slice_getElem? (a := s) (b := e) (k := k - s) hex h1
  have : s + (k - s) = k := by omega
  rw [this] at hsome
  exact List.getElem?_mem hsome

theorem try_from_ok_wf {a b : Nat} {o x : List Nat} {p : SparsityPattern}
    (h : SparsityPattern.try_from_offsets_and_indices a b o x = .ok p) : p.wf := by
  obtain ⟨hp, hlen, h0, hla, hc⟩ := try_from_ok_inv h
  subst hp
  have hmono : ∀ i, i < o.length - 1 → o.getD i 0 ≤ o.getD (i + 1) 0 := by
    intro i hi
    obtain ⟨s, e, hs, he, hse, _, _⟩ := checkLanesFrom_ok a 0 hc i (Nat.zero_le _) (by omega)
    rw [List.getD_eq_getElem?_getD, List.getD_eq_getElem?_getD, hs, he]
    exact hse
  refine ⟨?_, h0, ?_, hmono, ?_⟩
  · show 0 < o.length
    simp [hlen]
  · show o.getD (o.length - 1) 0 = x.length
    rw [hlen]
    simpa using hla
  · show ∀ i, i < o.length - 1 → ∀ k, k < o.getD (i + 1) 0 →
      o.getD i 0 ≤ k → k + 1 < o.getD (i + 1) 0 → x.getD k 0 < x.getD (k + 1) 0
    intro i hi k _ hk1 hk2
    obtain ⟨s, e, hs, he, hse, hex, hv⟩ := checkLanesFrom_ok a 0 hc i (Nat.zero_le _) (by omega)
    have hsd : o.getD i 0 = s := by
      rw [List.getD_eq_getElem?_getD, hs]
      rfl
    have hed : o.getD (i + 1) 0 = e := by
      rw [List.getD_eq_getElem?_getD, he]
      rfl
    rw [hsd] at hk1
    rw [hed] at hk2
    have hchain := (validateLane_none_chain _ _ hv).1
    exact chain_slice_adjacent hchain hex k hk1 hk2

/-! ### Facts about the entry iterator -/

theorem next_cons (o x : List Nat) (L a : Nat) (rest : List Nat) :
    SparsityPatternIter.next ⟨o, x, L, a :: rest⟩ = .yield (L, a) ⟨o, x, L, rest⟩ := rfl

theorem next_nil (o x : List Nat) (L : Nat) :
    SparsityPatternIter.next ⟨o, x, L, []⟩ =
      match seekFrom o x (o.length + 1) L with
      | .panicked => .panicked
      | .done fi => .done ⟨o, x, fi, []⟩
      | .yield pair ni rem => .yield pair ⟨o, x, ni, rem⟩ := rfl

theorem tailEntries_cons {o x : List Nat} {L t cnt : Nat}
    (ht : t < o.getD (L + 1) 0) (hex : o.getD (L + 1) 0 ≤ x.length) (hc : 0 < cnt) :
    tailEntries o x L t cnt = (L, x.getD t 0) :: tailEntries o x L (t + 1) cnt := by
  obtain ⟨c, rfl⟩ : ∃ c, cnt = c + 1 := ⟨cnt - 1, by omega⟩
  rw [tailEntries, tailEntries, slice_cons ht hex, List.map_cons, List.cons_append]

theorem seekFrom_spec {o x : List Nat}
    (hmono : ∀ i, i < o.length - 1 → o.getD i 0 ≤ o.getD (i + 1) 0)
    (hlast : o.getD (o.length - 1) 0 = x.length) :
    ∀ (fuel L : Nat), L < o.length - 1 → o.length - 1 - L ≤ fuel →
      (tailEntries o x (L + 1) (o.getD (L + 1) 0) (o.length - 1 - (L + 1)) = [] ∧
        ∃ fi, seekFrom o x fuel L = .done fi)
      ∨ (∃ L', L < L' ∧ L' < o.length - 1 ∧ o.getD L' 0 < o.getD (L' + 1) 0 ∧
          seekFrom o x fuel L = .yield (L', x.getD (o.getD L' 0) 0) L'
            ((x.drop (o.getD L' 0 + 1)).take (o.getD (L' + 1) 0 - (o.getD L' 0 + 1))) ∧
          tailEntries o x (L + 1) (o.getD (L + 1) 0) (o.length - 1 - (L + 1)) =
            (L', x.getD (o.getD L' 0) 0) ::
              tailEntries o x L' (o.getD L' 0 + 1) (o.length - 1 - L')) := by
  intro fuel
  induction fuel with
  | zero =>
    intro L hL hf
    omega
  | succ f ih =>
    intro L hL hf
    rw [seekFrom]
    by_cases hguard : L + 2 ≥ o.length
    · left
      have hz : o.length - 1 - (L + 1) = 0 := by omega
      rw [hz, if_pos hguard]
      exact ⟨rfl, L, rfl⟩
    · rw [if_neg hguard]
      have hL1 : L + 1 < o.length - 1 := by omega
      have hsome1 : o[L + 1]? = some (o.getD (L + 1) 0) := getElem?_eq_some_getD (by omega)
      have hsome2 : o[L + 2]? = some (o.getD (L + 2) 0) := getElem?_eq_some_getD (by omega)
      rw [hsome1, hsome2]
      dsimp only
      have hupx : o.getD (L + 2) 0 ≤ x.length := by
        rw [← hlast]
        exact oget_mono hmono (by omega) (by omega)
      by_cases hup : o.getD (L + 2) 0 > o.getD (L + 1) 0
      · rw [if_pos hup]
        have hlow : o.getD (L + 1) 0 < x.length := by omega
        rw [rustSlice_eq_some (by omega) hupx, getElem?_eq_some_getD hlow]
        dsimp only
        right
        refine ⟨L + 1, by omega, hL1, hup, rfl, ?_⟩
        have hm1 : o.length - 1 - (L + 1) = (o.length - 1 - (L + 2)) + 1 := by omega
        rw [hm1, tailEntries, tailEntries, slice_cons hup hupx, List.map_cons, List.cons_append]
      · rw [if_neg hup]
        have hupeq : o.getD (L + 2) 0 - o.getD (L + 1) 0 = 0 := by omega
        have hsplit : tailEntries o x (L + 1) (o.getD (L + 1) 0) (o.length - 1 - (L + 1)) =
            tailEntries o x (L + 2) (o.getD (L + 2) 0) (o.length - 1 - (L + 2)) := by
          have hm1 : o.length - 1 - (L + 1) = (o.length - 1 - (L + 2)) + 1 := by omega
          rw [hm1, tailEntries, hupeq, List.take_zero, List.map_nil, List.nil_append]
        rcases ih (L + 1) hL1 (by omega) with ⟨hnil, fi, hseek⟩ | ⟨L', h1, h2, h3, hseek, heq⟩
        · left
          rw [hsplit]
          exact ⟨hnil, fi, hseek⟩
        · right
          refine ⟨L', by omega, h2, h3, hseek, ?_⟩
          rw [hsplit]
          exact heq

theorem runIter_spec {o x : List Nat}
    (hmono : ∀ i, i < o.length - 1 → o.getD i 0 ≤ o.getD (i + 1) 0)
    (hlast : o.getD (o.length - 1) 0 = x.length) :
    ∀ (fuel L t : Nat), L < o.length - 1 → o.getD L 0 ≤ t → t ≤ o.getD (L + 1) 0 →
      (tailEntries o x L t (o.length - 1 - L)).length < fuel →
      runIter fuel ⟨o, x, L, (x.drop t).take (o.getD (L + 1) 0 - t)⟩ =
        some (tailEntries o x L t (o.length - 1 - L)) := by
  intro fuel
  induction fuel with
  | zero =>
    intro L t _ _ _ hlt
    omega
  | succ f ih =>
    intro L t hL ht1 ht2 hlt
    have hex : o.getD (L + 1) 0 ≤ x.length := by
      rw [← hlast]
      exact oget_mono hmono (by omega) (by omega)
    have hcnt : 0 < o.length - 1 - L := by omega
    by_cases ht : t < o.getD (L + 1) 0
    · rw [slice_cons ht hex, runIter, next_cons]
      dsimp only
      have hcons := tailEntries_cons (o := o) (x := x) (L := L) ht hex hcnt
      have hlen2 : (tailEntries o x L (t + 1) (o.length - 1 - L)).length < f := by
        have := congrArg List.length hcons
        simp only [List.length_cons] at this
        omega
      rw [ih L (t + 1) hL (by omega) (by omega) hlen2, Option.map_some', ← hcons]
    · have hteq : t = o.getD (L + 1) 0 := by omega
      rw [show o.getD (L + 1) 0 - t = 0 from by omega, List.take_zero, runIter, next_nil]
      have hsplit : tailEntries o x L t (o.length - 1 - L) =
          tailEntries o x (L + 1) (o.getD (L + 1) 0) (o.length - 1 - (L + 1)) := by
        have hm1 : o.length - 1 - L = (o.length - 1 - (L + 1)) + 1 := by omega
        rw [hm1, tailEntries, show o.getD (L + 1) 0 - t = 0 from by omega,
          List.take_zero, List.map_nil, List.nil_append]
      rcases seekFrom_spec hmono hlast (o.length + 1) L hL (by omega) with
        ⟨hnil, fi, hseek⟩ | ⟨L', h1, h2, h3, hseek, heq⟩
      · rw [hseek]
        dsimp only
        rw [hsplit, hnil]
      · rw [hseek]
        dsimp only
        have hlen2 : (tailEntries o x L' (o.getD L' 0 + 1) (o.length - 1 - L')).length < f := by
          have := congrArg List.length (hsplit.trans heq)
          simp only [List.length_cons] at this
          omega
        rw [ih L' (o.getD L' 0 + 1) h2 (by omega) (by omega) hlen2, Option.map_some',
          hsplit, heq]

theorem tailEntries_length {o x : List Nat}
    (hmono : ∀ i, i < o.length - 1 → o.getD i 0 ≤ o.getD (i + 1) 0)
    (hlast : o.getD (o.length - 1) 0 = x.length) :
    ∀ (c L t : Nat), L + c ≤ o.length - 1 → o.getD L 0 ≤ t →
      (c = 0 ∨ t ≤ o.getD (L + 1) 0) →
      (tailEntries o x L t c).length = o.getD (L + c) 0 - t := by
  intro c
  induction c with
  | zero =>
    intro L t _ ht _
    rw [tailEntries, List.length_nil, Nat.add_zero]
    omega
  | succ c ih =>
    intro L t hLc ht hdisj
    have ht2 : t ≤ o.getD (L + 1) 0 := by
      rcases hdisj with h | h
      · omega
      · exact h
    have hex : o.getD (L + 1) 0 ≤ x.length := by
      rw [← hlast]
      exact oget_mono hmono (by omega) (by omega)
    have hrec := ih (L + 1) (o.getD (L + 1) 0) (by omega) (le_refl _) ?_
    · rw [tailEntries, List.length_append, List.length_map, slice_length hex, hrec]
      have hmono2 : o.getD (L + 1) 0 ≤ o.getD (L + 1 + c) 0 :=
        oget_mono hmono (by omega) (by omega)
      have : L + 1 + c = L + (c + 1) := by omega
      rw [this] at hmono2 ⊢
      omega
    · rcases Nat.eq_zero_or_pos c with rfl | hc
      · exact Or.inl rfl
      · exact Or.inr (hmono (L + 1) (by omega))

theorem entriesList_eq {p : SparsityPattern} (h : p.wf) :
    p.entriesList =
      some (tailEntries p.major_offsets p.minor_indices 0 0 (p.major_offsets.length - 1)) := by
  obtain ⟨hpos, h0, hlast, hmono, _⟩ := h
  rcases Nat.lt_or_ge 1 p.major_offsets.length with hm | hm
  · -- at least one lane
    have hsome1 : p.major_offsets[1]? = some (p.major_offsets.getD 1 0) :=
      getElem?_eq_some_getD hm
    have hex : p.major_offsets.getD 1 0 ≤ p.minor_indices.length := by
      rw [← hlast]
      exact oget_mono hmono (by omega) (by omega)
    rw [SparsityPattern.entriesList, SparsityPatternIter.from_pattern]
    rw [hsome1]
    dsimp only [Option.getD_some]
    rw [rustSlice_eq_some (Nat.zero_le _) hex]
    dsimp only
    have hlen : (tailEntries p.major_offsets p.minor_indices 0 0
        (p.major_offsets.length - 1)).length = p.minor_indices.length := by
      have := tailEntries_length hmono hlast (p.major_offsets.length - 1) 0 0
        (by omega) (by rw [h0]) (Or.inr (Nat.zero_le _))
      rw [this, Nat.zero_add, hlast, Nat.sub_zero]
    have := runIter_spec hmono hlast (p.nnz + 1) 0 0 (by omega) (by rw [h0])
      (Nat.zero_le _) (by simp only [Nat.sub_zero]; rw [hlen]; exact Nat.lt_succ_self _)
    simp only [Nat.zero_add, Nat.sub_zero, List.drop_zero] at this ⊢
    exact this
  · -- no lanes: major_offsets = [c], minor_indices = []
    have hlen1 : p.major_offsets.length = 1 := by omega
    have hx : p.minor_indices.length = 0 := by
      rw [← hlast, hlen1]
      exact h0
    have hxnil : p.minor_indices = [] := List.length_eq_zero.mp hx
    have hnone : p.major_offsets[1]? = none := by
      rw [List.getElem?_eq_none_iff]
      omega
    rw [SparsityPattern.entriesList, SparsityPatternIter.from_pattern]
    rw [hnone]
    dsimp only [Option.getD_none]
    rw [rustSlice_eq_some (le_refl 0) (Nat.zero_le _), Nat.sub_zero, List.take_zero]
    dsimp only
    rw [SparsityPattern.nnz, hx, runIter, next_nil]
    have hseek : seekFrom p.major_offsets p.minor_indices (p.major_offsets.length + 1) 0 =
        .done 0 := by
      rw [seekFrom, if_pos (by omega)]
    rw [hseek]
    dsimp only
    rw [hlen1]
    rfl

theorem tailEntries_get? {o x : List Nat}
    (hmono : ∀ i, i < o.length - 1 → o.getD i 0 ≤ o.getD (i + 1) 0)
    (hlast : o.getD (o.length - 1) 0 = x.length) :
    ∀ (c L t : Nat), L + c ≤ o.length - 1 → o.getD L 0 ≤ t →
      (c = 0 ∨ t ≤ o.getD (L + 1) 0) →
      ∀ k, k < o.getD (L + c) 0 - t →
        ∃ i, L ≤ i ∧ i < L + c ∧ o.getD i 0 ≤ t + k ∧ t + k < o.getD (i + 1) 0 ∧
          (tailEntries o x L t c)[k]? = some (i, x.getD (t + k) 0) := by
  intro c
  induction c with
  | zero =>
    intro L t _ ht _ k hk
    rw [Nat.add_zero] at hk
    omega
  | succ c ih =>
    intro L t hLc ht hdisj k hk
    have ht2 : t ≤ o.getD (L + 1) 0 := by
      rcases hdisj with h | h
      · omega
      · exact h
    have hex : o.getD (L + 1) 0 ≤ x.length := by
      rw [← hlast]
      exact oget_mono hmono (by omega) (by omega)
    have hseglen : (((x.drop t).take (o.getD (L + 1) 0 - t)).map
        (fun j => (L, j))).length = o.getD (L + 1) 0 - t := by
      rw [List.length_map, slice_length hex]
    by_cases hkseg : k < o.getD (L + 1) 0 - t
    · refine ⟨L, le_refl _, by omega, by omega, by omega, ?_⟩
      rw [tailEntries, List.getElem?_append_left (by rw [hseglen]; exact hkseg),
        List.getElem?_map, slice_getElem? hex hkseg]
      rfl
    · have hmono2 : o.getD (L + 1) 0 ≤ o.getD (L + (c + 1)) 0 := by
        have := oget_mono hmono (i := L + 1) (j := L + 1 + c) (by omega) (by omega)
        rw [show L + 1 + c = L + (c + 1) from by omega] at this
        exact this
      have hrec := ih (L + 1) (o.getD (L + 1) 0) (by omega) (le_refl _) ?_
        (k - (o.getD (L + 1) 0 - t)) ?_
      · obtain ⟨i, hi1, hi2, hi3, hi4, hi5⟩ := hrec
        refine ⟨i, by omega, by omega, by omega, by omega, ?_⟩
        rw [tailEntries, List.getElem?_append_right (by rw [hseglen]; omega), hseglen]
        rw [hi5]
        have : o.getD (L + 1) 0 + (k - (o.getD (L + 1) 0 - t)) = t + k := by omega
        rw [this]
      · rcases Nat.eq_zero_or_pos c with rfl | hc
        · exact Or.inl rfl
        · exact Or.inr (hmono (L + 1) (by omega))
      · rw [show L + 1 + c = L + (c + 1) from by omega]
        omega

theorem lane_unique {o : List Nat}
    (hmono : ∀ i, i < o.length - 1 → o.getD i 0 ≤ o.getD (i + 1) 0)
    {i j k : Nat} (hi : i + 1 < o.length) (hj : j + 1 < o.length)
    (hik : o.getD i 0 ≤ k) (hik2 : k < o.getD (i + 1) 0)
    (hjk : o.getD j 0 ≤ k) (hjk2 : k < o.getD (j + 1) 0) : i = j := by
  rcases lt_trichotomy i j with hlt | heq | hgt
  · have : o.getD (i + 1) 0 ≤ o.getD j 0 := oget_mono hmono (by omega) (by omega)
    omega
  · exact heq
  · have : o.getD (j + 1) 0 ≤ o.getD i 0 := oget_mono hmono (by omega) (by omega)
    omega

theorem seekFrom_done_inv {o x : List Nat} :
    ∀ (fuel idx fi : Nat), seekFrom o x fuel idx = .done fi → o.length ≤ fi + 2 ∧ fi ≥ idx := by
  intro fuel
  induction fuel with
  | zero =>
    intro idx fi h
    rw [seekFrom] at h
    simp at h
  | succ f ih =>
    intro idx fi h
    rw [seekFrom] at h
    by_cases hg : idx + 2 ≥ o.length
    · rw [if_pos hg] at h
      have : idx = fi := by simpa using h
      omega
    · rw [if_neg hg] at h
      cases h1 : o[idx + 1]? with
      | none => rw [h1] at h; simp at h
      | some lower =>
        cases h2 : o[idx + 2]? with
        | none => rw [h1, h2] at h; simp at h
        | some upper =>
          rw [h1, h2] at h
          dsimp only at h
          by_cases hup : upper > lower
          · rw [if_pos hup] at h
            cases h3 : rustSlice x (lower + 1) upper with
            | none => rw [h3] at h; simp at h
            | some rem =>
              cases h4 : x[lower]? with
              | none => rw [h3, h4] at h; simp at h
              | some fm => rw [h3, h4] at h; simp at h
          · rw [if_neg hup] at h
            have := ih (idx + 1) fi h
            omega

theorem next_fused {it s : SparsityPatternIter} (h : it.next = .done s) :
    s.next = .done s := by
  obtain ⟨mo, mi, ci, rem⟩ := it
  cases rem with
  | cons a rest =>
    rw [next_cons] at h
    exact absurd h (by simp)
  | nil =>
    rw [next_nil] at h
    cases hseek : seekFrom mo mi (mo.length + 1) ci with
    | panicked => rw [hseek] at h; exact absurd h (by simp)
    | yield pair ni rem2 => rw [hseek] at h; exact absurd h (by simp)
    | done fi =>
      rw [hseek] at h
      dsimp only at h
      have hs : s = ⟨mo, mi, fi, []⟩ := by
        have := StepResult.done.inj h
        exact this.symm
      subst hs
      have hge := seekFrom_done_inv (o := mo) (x := mi) (mo.length + 1) ci fi hseek
      rw [next_nil, seekFrom, if_pos (by omega)]

theorem lane_of_wf {p : SparsityPattern} (h : p.wf) (mi : Nat) :
    (mi + 1 < p.major_offsets.length → p.lane mi = .view (laneSliceOf p mi)) ∧
    (p.major_offsets.length ≤ mi + 1 → p.lane mi = .absent) := by
  obtain ⟨hpos, h0, hlast, hmono, _⟩ := h
  constructor
  · intro hmi
    have h1 : p.major_offsets[mi]? = some (p.major_offsets.getD mi 0) :=
      getElem?_eq_some_getD (by omega)
    have h2 : p.major_offsets[mi + 1]? = some (p.major_offsets.getD (mi + 1) 0) :=
      getElem?_eq_some_getD hmi
    have hse : p.major_offsets.getD mi 0 ≤ p.major_offsets.getD (mi + 1) 0 :=
      hmono mi (by omega)
    have hex : p.major_offsets.getD (mi + 1) 0 ≤ p.minor_indices.length := by
      rw [← hlast]
      exact oget_mono hmono (by omega) (by omega)
    rw [SparsityPattern.lane, h1, h2]
    dsimp only
    rw [rustSlice_eq_some hse hex]
    rfl
  · intro hmi
    have h2 : p.major_offsets[mi + 1]? = none := by
      rw [List.getElem?_eq_none_iff]
      exact hmi
    cases h1 : p.major_offsets[mi]? with
    | none => rw [SparsityPattern.lane, h1]
    | some s => rw [SparsityPattern.lane, h1, h2]

/-! ### Claim theorems -/

/-- Claim C1: the claim states that `try_from_offsets_and_indices` never crashes —
in particular that the slicing of `minor_indices` by offset ranges never goes
out of bounds for offsets that pass the length and first/last checks. The
code violates this: the input below passes those checks (length `3 = 2 + 1`,
first offset `0`, last offset `3 = minor_indices.len()`), yet lane 0 slices
`minor_indices[0..5]` on an array of length 3, which panics. -/
theorem spec_C1_panic :
    ([0, 5, 3] : List Nat).length = 2 + 1 ∧
    ([0, 5, 3] : List Nat).getD 0 0 = 0 ∧
    ([0, 5, 3] : List Nat).getD 2 0 = ([1, 2, 3] : List Nat).length ∧
    SparsityPattern.try_from_offsets_and_indices 2 4 [0, 5, 3] [1, 2, 3] =
      .panicked := by
  refine ⟨rfl, rfl, rfl, by decide⟩

/-- Claim C2: every pattern returned successfully by `try_from_offsets_and_indices`
satisfies the structural invariants: offsets length `major_dim + 1`, first
offset `0`, non-decreasing offsets, last offset equal to the length of
`minor_indices`, and each lane's minor indices strictly increasing and
bounded by `minor_dim`. -/
theorem spec_C2 {major_dim minor_dim : Nat} {major_offsets minor_indices : List Nat}
    {p : SparsityPattern}
    (h : SparsityPattern.try_from_offsets_and_indices major_dim minor_dim
      major_offsets minor_indices = .ok p) :
    validPatternSpec major_dim minor_dim p := by
  obtain ⟨hp, hlen, h0, hla, hc⟩ := try_from_ok_inv h
  have hwf := try_from_ok_wf h
  subst hp
  refine ⟨hlen, h0, ?_, hla, ?_⟩
  · intro i hi
    exact hwf.2.2.2.1 i (by simpa [hlen] using hi)
  · intro i hi
    obtain ⟨s, e, hs, he, hse, hex, hv⟩ :=
      checkLanesFrom_ok major_dim 0 hc i (Nat.zero_le _) (by omega)
    have hsd : major_offsets.getD i 0 = s := by
      rw [List.getD_eq_getElem?_getD, hs]
      rfl
    have hed : major_offsets.getD (i + 1) 0 = e := by
      rw [List.getD_eq_getElem?_getD, he]
      rfl
    have hslice : laneSliceOf ⟨major_offsets, minor_indices, minor_dim⟩ i =
        (minor_indices.drop s).take (e - s) := by
      rw [laneSliceOf]
      dsimp only
      rw [hsd, hed]
    constructor
    · rw [hslice]
      exact List.chain'_iff_pairwise.mp (validateLane_none_chain _ _ hv).1
    · intro j hj
      rw [hslice] at hj
      exact validateLane_none_mem _ _ hv j hj

/-- Claim C2 witness: the theorem applied to Scenario A. -/
theorem spec_C2_witness :
    SparsityPattern.try_from_offsets_and_indices 3 4 [0, 2, 3, 4] [0, 2, 1, 0] =
      .ok ⟨[0, 2, 3, 4], [0, 2, 1, 0], 4⟩ ∧
    validPatternSpec 3 4 ⟨[0, 2, 3, 4], [0, 2, 1, 0], 4⟩ :=
  ⟨by decide,
    @spec_C2 3 4 [0, 2, 3, 4] [0, 2, 1, 0] ⟨[0, 2, 3, 4], [0, 2, 1, 0], 4⟩ (by decide)⟩

/-- Claim C3: for every valid pattern, `entries()` produces exactly `nnz` pairs, the
`k`-th being `(i, minor_indices[k])` for the unique lane `i` with
`major_offsets[i] ≤ k < major_offsets[i+1]`; lane indices are non-decreasing
across the sequence and minor indices strictly increase within a lane. In
particular Scenario A yields `[(0,0),(0,2),(1,1),(2,0)]`. -/
theorem spec_C3 {p : SparsityPattern} (h : p.wf) : entriesSpec p ∧ scenarioASpec := by
  refine ⟨?_, by decide, by decide⟩
  have hpos := h.1
  have h0 := h.2.1
  have hlast := h.2.2.1
  have hmono := h.2.2.2.1
  have hsorted := h.2.2.2.2
  have hlenL : (tailEntries p.major_offsets p.minor_indices 0 0
      (p.major_offsets.length - 1)).length = p.nnz := by
    have := tailEntries_length hmono hlast (p.major_offsets.length - 1) 0 0
      (by omega) (by omega) (Or.inr (Nat.zero_le _))
    rw [this]
    simp only [Nat.zero_add, Nat.sub_zero]
    exact hlast
  refine ⟨tailEntries p.major_offsets p.minor_indices 0 0 (p.major_offsets.length - 1),
    entriesList_eq h, hlenL, ?_, ?_⟩
  · intro k hk
    have hc1 : k < p.major_offsets.getD (0 + (p.major_offsets.length - 1)) 0 - 0 := by
      simp only [Nat.zero_add, Nat.sub_zero]
      rw [hlast]
      exact hk
    obtain ⟨i, hi0, hi1, hi2, hi3, hi4⟩ := tailEntries_get? hmono hlast
      (p.major_offsets.length - 1) 0 0 (by omega) (by omega)
      (Or.inr (Nat.zero_le _)) k hc1
    simp only [Nat.zero_add] at hi1 hi2 hi3 hi4
    refine ⟨i, by omega, hi2, hi3, hi4, ?_⟩
    intro i2 hI ha hb
    exact lane_unique hmono hI (by omega) ha hb hi2 hi3
  · intro k a b hka hkb
    have hkb1 : k + 1 < p.nnz := by
      obtain ⟨hb2, _⟩ := List.getElem?_eq_some_iff.mp hkb
      rw [hlenL] at hb2
      exact hb2
    have hka1 : k < p.nnz := by omega
    have hc1 : k < p.major_offsets.getD (0 + (p.major_offsets.length - 1)) 0 - 0 := by
      simp only [Nat.zero_add, Nat.sub_zero]
      rw [hlast]
      exact hka1
    have hc2 : k + 1 < p.major_offsets.getD (0 + (p.major_offsets.length - 1)) 0 - 0 := by
      simp only [Nat.zero_add, Nat.sub_zero]
      rw [hlast]
      exact hkb1
    obtain ⟨i, hi0, hi1, hi2, hi3, hi4⟩ := tailEntries_get? hmono hlast
      (p.major_offsets.length - 1) 0 0 (by omega) (by omega)
      (Or.inr (Nat.zero_le _)) k hc1
    obtain ⟨i2, hj0, hj1, hj2, hj3, hj4⟩ := tailEntries_get? hmono hlast
      (p.major_offsets.length - 1) 0 0 (by omega) (by omega)
      (Or.inr (Nat.zero_le _)) (k + 1) hc2
    simp only [Nat.zero_add] at hi1 hi2 hi3 hi4 hj1 hj2 hj3 hj4
    have ha : a = (i, p.minor_indices.getD k 0) := Option.some.inj (hka.symm.trans hi4)
    have hb : b = (i2, p.minor_indices.getD (k + 1) 0) :=
      Option.some.inj (hkb.symm.trans hj4)
    rw [ha, hb]
    constructor
    · show i ≤ i2
      by_contra hcon
      push_neg at hcon
      have : p.major_offsets.getD (i2 + 1) 0 ≤ p.major_offsets.getD i 0 :=
        oget_mono hmono (by omega) (by omega)
      omega
    · intro heq
      have heq2 : i = i2 := heq
      show p.minor_indices.getD k 0 < p.minor_indices.getD (k + 1) 0
      subst heq2
      exact hsorted i (by omega) k hi3 hi2 (by omega)

/-- Claim C3 witness: the theorem applied to the pattern of Scenario A. -/
theorem spec_C3_witness :
    (⟨[0, 2, 3, 4], [0, 2, 1, 0], 4⟩ : SparsityPattern).wf ∧
    (entriesSpec ⟨[0, 2, 3, 4], [0, 2, 1, 0], 4⟩ ∧ scenarioASpec) :=
  ⟨by decide, spec_C3 (by decide)⟩

theorem validateLane_oob_first {md next : Nat} (prev : Option Nat) (rest : List Nat)
    (h : md < next) : validateLane md prev (next :: rest) = some .IndexOutOfBounds := by
  cases prev <;> simp [validateLane, h]

theorem validateLane_oob_mem {md : Nat} :
    ∀ (l : List Nat) (prev : Option Nat),
      validateLane md prev l = some .IndexOutOfBounds → ∃ j ∈ l, md < j := by
  intro l
  induction l with
  | nil =>
    intro prev h
    cases prev <;> simp [validateLane] at h
  | cons a rest ih =>
    intro prev h
    by_cases hb : a > md
    · exact ⟨a, List.mem_cons_self a rest, hb⟩
    · have hrec : validateLane md (some a) rest = some .IndexOutOfBounds := by
        cases prev with
        | none => simpa [validateLane, hb] using h
        | some pv =>
          by_cases h1 : pv > a
          · simp [validateLane, hb, h1] at h
          · by_cases hq : pv = a
            · simp [validateLane, hb, h1, hq] at h
            · simpa [validateLane, hb, h1, hq] using h
      obtain ⟨j, hj, hjm⟩ := ih (some a) hrec
      exact ⟨j, List.mem_cons_of_mem a hj, hjm⟩

/-- Claim C4: the minor-index bound check rejects (with the *index out of bounds*
kind) exactly the values strictly greater than `minor_dim`; a value equal to
`minor_dim` is accepted and appears in the successfully built pattern. The
first two conjuncts show this for the constructor on the one-lane family
`offsets [0,1]`, `indices [v]`; the last two show that the validation walk
raises *index out of bounds* whenever it meets a value strictly greater than
`minor_dim`, and only when the lane holds such a value. -/
theorem spec_C4 (minor_dim v : Nat) :
    (SparsityPattern.try_from_offsets_and_indices 1 minor_dim [0, 1] [v] =
      (if minor_dim < v then .error .IndexOutOfBounds
       else .ok ⟨[0, 1], [v], minor_dim⟩)) ∧
    SparsityPattern.try_from_offsets_and_indices 1 minor_dim [0, 1] [minor_dim] =
      .ok ⟨[0, 1], [minor_dim], minor_dim⟩ ∧
    (∀ (prev : Option Nat) (rest : List Nat), minor_dim < v →
      validateLane minor_dim prev (v :: rest) = some .IndexOutOfBounds) ∧
    (∀ (prev : Option Nat) (l : List Nat),
      validateLane minor_dim prev l = some .IndexOutOfBounds → ∃ j ∈ l, minor_dim < j) := by
  have hstep : ∀ (w : Nat),
      SparsityPattern.try_from_offsets_and_indices 1 minor_dim [0, 1] [w] =
        match (match validateLane minor_dim none [w] with
               | some e => LanesOutcome.error e
               | none => LanesOutcome.ok) with
        | .panicked => TryResult.panicked
        | .error e => TryResult.error e
        | .ok => TryResult.ok ⟨[0, 1], [w], minor_dim⟩ := fun w => rfl
  refine ⟨?_, ?_, fun prev rest h => validateLane_oob_first prev rest h,
    fun prev l h => validateLane_oob_mem l prev h⟩
  · by_cases hv : minor_dim < v
    · have hval : validateLane minor_dim none [v] = some .IndexOutOfBounds := by
        rw [validateLane, if_pos hv]
      rw [hstep v, hval, if_pos hv]
    · have hval : validateLane minor_dim none [v] = none := by
        rw [validateLane, if_neg (by omega : ¬ v > minor_dim)]
        rfl
      rw [hstep v, hval, if_neg hv]
  · have hval : validateLane minor_dim none [minor_dim] = none := by
      rw [validateLane, if_neg (by omega : ¬ minor_dim > minor_dim)]
      rfl
    rw [hstep minor_dim, hval]

/-- Claim C4 witness: the theorem applied at `minor_dim = 4`, `v = 5`,
discharging the hypothesis of the third conjunct. -/
theorem spec_C4_witness :
    4 < 5 ∧ validateLane 4 none (5 :: []) = some .IndexOutOfBounds :=
  ⟨by decide, (spec_C4 4 5).2.2.1 none [] (by decide)⟩

/-- Claim C5: the arrays of a successfully constructed pattern are the caller's
arrays, unchanged, and `minor_dim` is stored as given. -/
theorem spec_C5 {major_dim minor_dim : Nat} {major_offsets minor_indices : List Nat}
    {p : SparsityPattern}
    (h : SparsityPattern.try_from_offsets_and_indices major_dim minor_dim
      major_offsets minor_indices = .ok p) :
    p.major_offsets = major_offsets ∧ p.minor_indices = minor_indices ∧
      p.minor_dim = minor_dim := by
  obtain ⟨hp, _, _, _, _⟩ := try_from_ok_inv h
  subst hp
  exact ⟨rfl, rfl, rfl⟩

/-- Claim C5 witness: the theorem applied to Scenario A. -/
theorem spec_C5_witness :
    SparsityPattern.try_from_offsets_and_indices 3 4 [0, 2, 3, 4] [0, 2, 1, 0] =
      .ok ⟨[0, 2, 3, 4], [0, 2, 1, 0], 4⟩ ∧
    ((⟨[0, 2, 3, 4], [0, 2, 1, 0], 4⟩ : SparsityPattern).major_offsets = [0, 2, 3, 4] ∧
     (⟨[0, 2, 3, 4], [0, 2, 1, 0], 4⟩ : SparsityPattern).minor_indices = [0, 2, 1, 0] ∧
     (⟨[0, 2, 3, 4], [0, 2, 1, 0], 4⟩ : SparsityPattern).minor_dim = 4) :=
  ⟨by decide,
    @spec_C5 3 4 [0, 2, 3, 4] [0, 2, 1, 0] ⟨[0, 2, 3, 4], [0, 2, 1, 0], 4⟩ (by decide)⟩

/-- Claim C6: on a valid pattern, `lane(major_index)` is absent exactly when
`major_index + 1` exceeds the bounds of `major_offsets` (that is,
`major_index ≥ major_dimension`), and otherwise is the present sub-view
`minor_indices[major_offsets[i] .. major_offsets[i+1]]`, which is an empty
view rather than absent when the lane stores no entries. -/
theorem spec_C6 {p : SparsityPattern} (h : p.wf) (major_index : Nat) :
    (p.lane major_index = .absent ↔ p.major_offsets.length - 1 ≤ major_index) ∧
    (major_index + 1 < p.major_offsets.length →
      p.lane major_index = .view (laneSliceOf p major_index)) := by
  have hl := lane_of_wf h major_index
  have hpos := h.1
  refine ⟨⟨?_, ?_⟩, hl.1⟩
  · intro habs
    by_contra hlt
    push_neg at hlt
    rw [hl.1 (by omega)] at habs
    exact LaneResult.noConfusion habs
  · intro hge
    exact hl.2 (by omega)

/-- Claim C6 witness: the theorem applied to Scenario A's pattern at lane 1. -/
theorem spec_C6_witness :
    (⟨[0, 2, 3, 4], [0, 2, 1, 0], 4⟩ : SparsityPattern).wf ∧
    (((⟨[0, 2, 3, 4], [0, 2, 1, 0], 4⟩ : SparsityPattern).lane 1 = .absent ↔
        (⟨[0, 2, 3, 4], [0, 2, 1, 0], 4⟩ : SparsityPattern).major_offsets.length - 1 ≤ 1) ∧
     (1 + 1 < (⟨[0, 2, 3, 4], [0, 2, 1, 0], 4⟩ : SparsityPattern).major_offsets.length →
        (⟨[0, 2, 3, 4], [0, 2, 1, 0], 4⟩ : SparsityPattern).lane 1 =
          .view (laneSliceOf ⟨[0, 2, 3, 4], [0, 2, 1, 0], 4⟩ 1))) :=
  ⟨by decide, spec_C6 (by decide) 1⟩

/-- Claim C7: the constructor reports the error kind matching the defect: an
out-of-bounds minor index gives *index out of bounds* and a repeated minor
index within one lane gives *duplicate entry* (shown on a one-lane family
and on the spec's Scenarios B and C). -/
theorem spec_C7 :
    (∀ minor_dim v : Nat,
      SparsityPattern.try_from_offsets_and_indices 1 minor_dim [0, 2] [v, v] =
        (if minor_dim < v then .error .IndexOutOfBounds
         else .error .DuplicateEntry)) ∧
    SparsityPattern.try_from_offsets_and_indices 2 4 [0, 1, 1] [5] =
      .error .IndexOutOfBounds ∧
    SparsityPattern.try_from_offsets_and_indices 2 4 [0, 2, 2] [1, 1] =
      .error .DuplicateEntry := by
  refine ⟨?_, by decide, by decide⟩
  intro minor_dim v
  have hstep : SparsityPattern.try_from_offsets_and_indices 1 minor_dim [0, 2] [v, v] =
      match (match validateLane minor_dim none [v, v] with
             | some e => LanesOutcome.error e
             | none => LanesOutcome.ok) with
      | .panicked => TryResult.panicked
      | .error e => TryResult.error e
      | .ok => TryResult.ok ⟨[0, 2], [v, v], minor_dim⟩ := rfl
  by_cases hv : minor_dim < v
  · have hval : validateLane minor_dim none [v, v] = some .IndexOutOfBounds := by
      rw [validateLane, if_pos hv]
    rw [hstep, hval, if_pos hv]
  · have hval : validateLane minor_dim none [v, v] = some .DuplicateEntry := by
      rw [validateLane, if_neg (by omega : ¬ v > minor_dim)]
      show validateLane minor_dim (some v) [v] = some .DuplicateEntry
      rw [validateLane, if_neg (by omega : ¬ v > minor_dim)]
      show (if v > v then some SparseFormatError.InvalidStructure
            else if v = v then some SparseFormatError.DuplicateEntry
            else validateLane minor_dim (some v) []) = some .DuplicateEntry
      rw [if_neg (by omega : ¬ v > v), if_pos rfl]
    rw [hstep, hval, if_neg hv]

theorem tailEntries_nil {o : List Nat} : ∀ (c L t : Nat), tailEntries o [] L t c = [] := by
  intro c
  induction c with
  | zero =>
    intro L t
    rfl
  | succ c ih =>
    intro L t
    rw [tailEntries, ih]
    simp

/-- Claim C8: `new` (the spec's `create`) always succeeds and builds the empty
pattern: `major_dim + 1` zero offsets, no minor indices; hence the major
dimension accessor returns `major_dim` (its assertion holds), `nnz` is 0 and
`entries()` yields the empty sequence — including the degenerate
`create(0, 5)`, an instance of the universally quantified statement. -/
theorem spec_C8 (major_dim minor_dim : Nat) :
    (SparsityPattern.new major_dim minor_dim).major_offsets =
      List.replicate (major_dim + 1) 0 ∧
    (SparsityPattern.new major_dim minor_dim).minor_indices = [] ∧
    (SparsityPattern.new major_dim minor_dim).major_dim = some major_dim ∧
    (SparsityPattern.new major_dim minor_dim).nnz = 0 ∧
    (SparsityPattern.new major_dim minor_dim).entriesList = some [] := by
  refine ⟨rfl, rfl, ?_, rfl, ?_⟩
  · rw [SparsityPattern.major_dim]
    rw [if_pos (by simp [SparsityPattern.new])]
    simp [SparsityPattern.new]
  · rw [entriesList_eq (new_wf major_dim minor_dim)]
    rw [show (SparsityPattern.new major_dim minor_dim).minor_indices = [] from rfl,
      tailEntries_nil]

/-- Claim C9: on every pattern produced by `new` or by a successful
`try_from_offsets_and_indices`, the accessors have no reachable failure:
the assertion in `major_dim()` holds (it returns the value, not the failure
outcome) and `lane` never panics for any index. -/
theorem spec_C9 {p : SparsityPattern}
    (h : (∃ a b, p = SparsityPattern.new a b) ∨
      (∃ a b o x, SparsityPattern.try_from_offsets_and_indices a b o x = .ok p)) :
    p.major_dim = some (p.major_offsets.length - 1) ∧
    (∀ major_index, p.lane major_index ≠ .panicked) := by
  have hwf : p.wf := by
    rcases h with ⟨a, b, rfl⟩ | ⟨a, b, o, x, hok⟩
    · exact new_wf a b
    · exact try_from_ok_wf hok
  constructor
  · rw [SparsityPattern.major_dim, if_pos hwf.1]
  · intro major_index
    have hl := lane_of_wf hwf major_index
    rcases Nat.lt_or_ge (major_index + 1) p.major_offsets.length with hlt | hge
    · rw [hl.1 hlt]
      intro hc
      exact LaneResult.noConfusion hc
    · rw [hl.2 hge]
      intro hc
      exact LaneResult.noConfusion hc

/-- Claim C9 witness: the theorem applied to Scenario A's pattern. -/
theorem spec_C9_witness :
    ((∃ a b, (⟨[0, 2, 3, 4], [0, 2, 1, 0], 4⟩ : SparsityPattern) =
        SparsityPattern.new a b) ∨
     (∃ a b o x, SparsityPattern.try_from_offsets_and_indices a b o x =
        .ok ⟨[0, 2, 3, 4], [0, 2, 1, 0], 4⟩)) ∧
    ((⟨[0, 2, 3, 4], [0, 2, 1, 0], 4⟩ : SparsityPattern).major_dim =
        some ((⟨[0, 2, 3, 4], [0, 2, 1, 0], 4⟩ : SparsityPattern).major_offsets.length - 1) ∧
     (∀ major_index,
        (⟨[0, 2, 3, 4], [0, 2, 1, 0], 4⟩ : SparsityPattern).lane major_index ≠
          .panicked)) :=
  ⟨Or.inr ⟨3, 4, [0, 2, 3, 4], [0, 2, 1, 0], by decide⟩,
   spec_C9 (Or.inr ⟨3, 4, [0, 2, 3, 4], [0, 2, 1, 0], by decide⟩)⟩

/-- Claim C10 counterexample: the claim says a step that signals exhaustion leaves
the iterator state unchanged. On the valid pattern with offsets
`[0,1,1,1]` and indices `[0]`, after the single yield the next step signals
exhaustion but advances `current_lane_idx` from 0 to 2 while skipping the
trailing empty lanes, so the state does change. -/
theorem spec_C10_cex :
    ∃ (p : SparsityPattern) (it0 s s2 : SparsityPatternIter),
      p.wf ∧ SparsityPatternIter.from_pattern p = some it0 ∧
      it0.next = .yield (0, 0) s ∧ s.next = .done s2 ∧ s2 ≠ s := by
  refine ⟨⟨[0, 1, 1, 1], [0], 1⟩, ⟨[0, 1, 1, 1], [0], 0, [0]⟩,
    ⟨[0, 1, 1, 1], [0], 0, []⟩, ⟨[0, 1, 1, 1], [0], 2, []⟩, ?_, ?_, ?_, ?_, ?_⟩ <;> decide

/-- Claim C10 (amended): once a step of the iterator signals exhaustion, every
subsequent step also signals exhaustion and leaves the state unchanged (so
the iterator never resumes yielding); the exhausting step itself, however,
may advance the lane index past trailing empty lanes. -/
theorem spec_C10_fused {it s : SparsityPatternIter} (h : it.next = .done s) :
    s.next = .done s :=
  next_fused h

/-- Claim C10 witness: a state whose `next` signals exhaustion after skipping two
empty lanes; the theorem shows the post-state is a fixed point. -/
theorem spec_C10_fused_witness :
    (⟨[0, 1, 1, 1], [0], 0, []⟩ : SparsityPatternIter).next =
      .done ⟨[0, 1, 1, 1], [0], 2, []⟩ ∧
    (⟨[0, 1, 1, 1], [0], 2, []⟩ : SparsityPatternIter).next =
      .done ⟨[0, 1, 1, 1], [0], 2, []⟩ :=
  ⟨by decide,
    @spec_C10_fused ⟨[0, 1, 1, 1], [0], 0, []⟩ ⟨[0, 1, 1, 1], [0], 2, []⟩ (by decide)⟩
